import Mathlib

/-!
Verification development for `update_publications.py`, the publication
auto-updater pipeline (SerpAPI works fetcher, OpenAlex impact-factor
resolver with a persistent cache, and HTML-generation grouping logic).

The Python source is shallowly embedded: pure string processing becomes
functions on `List Char`/`String`, the paginated HTTP source becomes a
function from a start offset to a list of article records, the impact
factor lookup becomes an oracle from a journal key to a lookup outcome,
and the mutable cache dict becomes an association list threaded through
the functions.  Floating point impact values are modelled as rationals.
-/

namespace PubUpdater

/-! ### Character classes used by `normalize_journal_name`

The regex `\s+\d+\s*[\(,]` uses the classes `\s` and `\d`; we model their
ASCII behaviour.  Python's `\s` matches space, tab, newline, carriage
return, vertical tab and form feed. -/

/-- ASCII whitespace, as matched by the regex class `\s` (and stripped by
Python's `str.strip()`). -/
def isSpaceAscii (c : Char) : Bool :=
  decide (c.toNat = 32 ∨ c.toNat = 9 ∨ c.toNat = 10 ∨ c.toNat = 13 ∨
    c.toNat = 11 ∨ c.toNat = 12)

/-- ASCII decimal digit, as matched by the regex class `\d`. -/
def isDigitChar (c : Char) : Bool :=
  decide (48 ≤ c.toNat ∧ c.toNat ≤ 57)

/-- The character class `[\(,]` ending the volume/issue pattern:
an opening parenthesis (code 40) or a comma (code 44). -/
def isVolStop (c : Char) : Bool :=
  decide (c.toNat = 40 ∨ c.toNat = 44)

/-- The characters removed by `rstrip('.,; ')`: period, comma, semicolon,
space. -/
def isPunctTrail (c : Char) : Bool :=
  decide (c.toNat = 46 ∨ c.toNat = 44 ∨ c.toNat = 59 ∨ c.toNat = 32)

theorem toLower_def (c : Char) :
    Char.toLower c =
      if 65 ≤ c.toNat ∧ c.toNat ≤ 90 then Char.ofNat (c.toNat + 32) else c :=
  rfl

theorem toNat_ofNat_shift (n : Nat) (h65 : 65 ≤ n) (h90 : n ≤ 90) :
    (Char.ofNat (n + 32)).toNat = n + 32 := by
  interval_cases n <;> decide

theorem toLower_toNat (c : Char) :
    (Char.toLower c).toNat =
      if 65 ≤ c.toNat ∧ c.toNat ≤ 90 then c.toNat + 32 else c.toNat := by
  rw [toLower_def]
  by_cases h : 65 ≤ c.toNat ∧ c.toNat ≤ 90
  · rw [if_pos h, if_pos h, toNat_ofNat_shift c.toNat h.1 h.2]
  · rw [if_neg h, if_neg h]

theorem isSpaceAscii_toLower (c : Char) :
    isSpaceAscii (Char.toLower c) = isSpaceAscii c := by
  rw [isSpaceAscii, isSpaceAscii, toLower_toNat]
  split
  · rw [decide_eq_decide]; omega
  · rfl

theorem isDigitChar_toLower (c : Char) :
    isDigitChar (Char.toLower c) = isDigitChar c := by
  rw [isDigitChar, isDigitChar, toLower_toNat]
  split
  · rw [decide_eq_decide]; omega
  · rfl

theorem isVolStop_toLower (c : Char) :
    isVolStop (Char.toLower c) = isVolStop c := by
  rw [isVolStop, isVolStop, toLower_toNat]
  split
  · rw [decide_eq_decide]; omega
  · rfl

theorem isPunctTrail_toLower (c : Char) :
    isPunctTrail (Char.toLower c) = isPunctTrail c := by
  rw [isPunctTrail, isPunctTrail, toLower_toNat]
  split
  · rw [decide_eq_decide]; omega
  · rfl

theorem toLower_toLower (c : Char) :
    Char.toLower (Char.toLower c) = Char.toLower c := by
  rw [toLower_def (Char.toLower c), toLower_toNat]
  by_cases h : 65 ≤ c.toNat ∧ c.toNat ≤ 90
  · rw [if_pos h, if_neg (by omega)]
  · rw [if_neg h, if_neg h]

theorem toLower_space (c : Char) (hs : isSpaceAscii c = true) :
    Char.toLower c = c := by
  rw [toLower_def, if_neg]
  rw [isSpaceAscii, decide_eq_true_eq] at hs
  omega

/-! ### The volume/issue pattern `\s+\d+\s*[\(,]`

`matchVolAt l` decides whether the regex matches at the start of `l`.
The character classes `\s`, `\d`, `[\(,]` are pairwise disjoint, so the
greedy/backtracking behaviour of the regex collapses to maximal runs:
a match at a position is one or more whitespace characters, then one or
more digits, then optional whitespace, then `(` or `,`. -/

def matchVolAt (l : List Char) : Bool :=
  let r1 := l.dropWhile isSpaceAscii
  let r2 := (r1.dropWhile isDigitChar).dropWhile isSpaceAscii
  !(l.takeWhile isSpaceAscii).isEmpty &&
  !(r1.takeWhile isDigitChar).isEmpty &&
  (match r2.head? with
   | some c => isVolStop c
   | none => false)

/-- `re.split(r'\s+\d+\s*[\(,]', name)[0]`: the prefix of the input
strictly before the leftmost position where the pattern matches. -/
def truncAtVol : List Char → List Char
  | [] => []
  | c :: rest => if matchVolAt (c :: rest) then [] else c :: truncAtVol rest

/-- `str.rstrip(chars)`: remove trailing characters satisfying `f`. -/
def rstripBy (f : Char → Bool) (l : List Char) : List Char :=
  (l.reverse.dropWhile f).reverse

/-- `str.strip()`: remove leading and trailing whitespace. -/
def stripWs (l : List Char) : List Char :=
  rstripBy isSpaceAscii (l.dropWhile isSpaceAscii)

/-- The list-level body of `normalize_journal_name`: truncate at the
first volume/issue marker, strip surrounding whitespace, remove trailing
`.,; ` characters, and lowercase. -/
def normalizeL (l : List Char) : List Char :=
  (rstripBy isPunctTrail (stripWs (truncAtVol l))).map Char.toLower

/-- `normalize_journal_name` (src/update_publications.py lines 108-119):
normalize a journal name for matching.  An empty (falsy) input is mapped
to the empty string up front. -/
def normalize_journal_name (name : String) : String :=
  if name = "" then "" else String.mk (normalizeL name.data)

example : normalize_journal_name "Advanced Materials 35 (12), 2417539" =
    "advanced materials" := by decide

example : normalize_journal_name "a\t." = "a\t" := by decide

example : normalize_journal_name "a\t" = "a" := by decide

example : normalize_journal_name " 1 (2)" = "" := by decide

/-! ### Structure of the volume/issue pattern -/

theorem not_space_of_digit (c : Char) (h : isDigitChar c = true) :
    isSpaceAscii c = false := by
  rw [isDigitChar, decide_eq_true_eq] at h
  rw [isSpaceAscii, decide_eq_false_iff_not]
  omega

theorem not_digit_of_space (c : Char) (h : isSpaceAscii c = true) :
    isDigitChar c = false := by
  rw [isSpaceAscii, decide_eq_true_eq] at h
  rw [isDigitChar, decide_eq_false_iff_not]
  omega

theorem not_space_of_volStop (c : Char) (h : isVolStop c = true) :
    isSpaceAscii c = false := by
  rw [isVolStop, decide_eq_true_eq] at h
  rw [isSpaceAscii, decide_eq_false_iff_not]
  omega

theorem not_digit_of_volStop (c : Char) (h : isVolStop c = true) :
    isDigitChar c = false := by
  rw [isVolStop, decide_eq_true_eq] at h
  rw [isDigitChar, decide_eq_false_iff_not]
  omega

theorem takeWhile_all (f : Char → Bool) :
    ∀ l : List Char, ∀ x ∈ l.takeWhile f, f x = true := by
  intro l
  induction l with
  | nil => intro x hx; cases hx
  | cons a l ih =>
    intro x hx
    rw [List.takeWhile_cons] at hx
    by_cases h : f a = true
    · rw [if_pos h] at hx
      rcases List.mem_cons.mp hx with h' | h'
      · rw [h']; exact h
      · exact ih x h'
    · rw [if_neg h] at hx; cases hx

theorem takeWhile_dropWhile_append (f : Char → Bool) (s r : List Char)
    (hs : ∀ x ∈ s, f x = true) (hr : ∀ c, r.head? = some c → f c = false) :
    (s ++ r).takeWhile f = s ∧ (s ++ r).dropWhile f = r := by
  induction s with
  | nil =>
    simp only [List.nil_append]
    cases r with
    | nil => exact ⟨rfl, rfl⟩
    | cons c r' =>
      have hc : f c = false := hr c rfl
      rw [List.takeWhile_cons, List.dropWhile_cons, hc]
      exact ⟨rfl, rfl⟩
  | cons a s' ih =>
    have ha : f a = true := hs a (List.mem_cons_self a s')
    have ih' := ih (fun x hx => hs x (List.mem_cons_of_mem a hx))
    simp only [List.cons_append, List.takeWhile_cons, List.dropWhile_cons, ha,
      if_true]
    exact ⟨by rw [ih'.1], ih'.2⟩

/-- Characterization of a match of `\s+\d+\s*[\(,]` at the head of the
list.  Because the three character classes are pairwise disjoint, the
regex's greedy matching is equivalent to this existential shape. -/
theorem matchVolAt_iff (l : List Char) :
    matchVolAt l = true ↔
      ∃ s d t c r, l = s ++ (d ++ (t ++ c :: r)) ∧
        s ≠ [] ∧ (∀ x ∈ s, isSpaceAscii x = true) ∧
        d ≠ [] ∧ (∀ x ∈ d, isDigitChar x = true) ∧
        (∀ x ∈ t, isSpaceAscii x = true) ∧ isVolStop c = true := by
  constructor
  · intro h
    rw [matchVolAt] at h
    rw [Bool.and_eq_true, Bool.and_eq_true] at h
    obtain ⟨⟨hs, hd⟩, hc⟩ := h
    rw [Bool.not_eq_true', List.isEmpty_eq_false] at hs hd
    cases hh : (((l.dropWhile isSpaceAscii).dropWhile isDigitChar).dropWhile
        isSpaceAscii).head? with
    | none => rw [hh] at hc; cases hc
    | some c =>
      rw [hh] at hc
      refine ⟨l.takeWhile isSpaceAscii,
        (l.dropWhile isSpaceAscii).takeWhile isDigitChar,
        ((l.dropWhile isSpaceAscii).dropWhile isDigitChar).takeWhile isSpaceAscii,
        c,
        (((l.dropWhile isSpaceAscii).dropWhile isDigitChar).dropWhile
          isSpaceAscii).tail,
        ?_, hs, takeWhile_all _ _, hd, takeWhile_all _ _, takeWhile_all _ _, hc⟩
      have e2 : ((l.dropWhile isSpaceAscii).dropWhile isDigitChar).dropWhile
          isSpaceAscii =
          c :: (((l.dropWhile isSpaceAscii).dropWhile isDigitChar).dropWhile
            isSpaceAscii).tail := by
        cases hcl : ((l.dropWhile isSpaceAscii).dropWhile isDigitChar).dropWhile
            isSpaceAscii with
        | nil => rw [hcl] at hh; cases hh
        | cons a tl =>
          rw [hcl] at hh
          rw [List.head?_cons, Option.some.injEq] at hh
          rw [hh]
          rfl
      rw [← e2, List.takeWhile_append_dropWhile,
        List.takeWhile_append_dropWhile, List.takeWhile_append_dropWhile]
  · rintro ⟨s, d, t, c, r, rfl, hs, hsp, hd, hdg, htp, hcv⟩
    have hdhead : ∀ x, (d ++ (t ++ c :: r)).head? = some x →
        isSpaceAscii x = false := by
      intro x hx
      cases d with
      | nil => exact absurd rfl hd
      | cons a d' =>
        rw [List.cons_append, List.head?_cons, Option.some.injEq] at hx
        subst hx
        exact not_space_of_digit a (hdg a (List.mem_cons_self a d'))
    have h1 := takeWhile_dropWhile_append isSpaceAscii s (d ++ (t ++ c :: r))
      hsp hdhead
    have hthead : ∀ x, (t ++ c :: r).head? = some x → isDigitChar x = false := by
      intro x hx
      cases t with
      | nil =>
        rw [List.nil_append, List.head?_cons, Option.some.injEq] at hx
        subst hx
        exact not_digit_of_volStop c hcv
      | cons a t' =>
        rw [List.cons_append, List.head?_cons, Option.some.injEq] at hx
        subst hx
        exact not_digit_of_space a (htp a (List.mem_cons_self a t'))
    have h2 := takeWhile_dropWhile_append isDigitChar d (t ++ c :: r) hdg hthead
    have hchead : ∀ x, (c :: r).head? = some x → isSpaceAscii x = false := by
      intro x hx
      rw [List.head?_cons, Option.some.injEq] at hx
      subst hx
      exact not_space_of_volStop c hcv
    have h3 := takeWhile_dropWhile_append isSpaceAscii t (c :: r) htp hchead
    rw [matchVolAt]
    simp only [h1.1, h1.2, h2.1, h2.2, h3.2]
    cases s with
    | nil => exact absurd rfl hs
    | cons a s' =>
      cases d with
      | nil => exact absurd rfl hd
      | cons b d' =>
        simp only [List.head?_cons, List.isEmpty_cons, Bool.not_false,
          Bool.true_and, hcv, Bool.and_true]

/-- A match at the head of a prefix extends to a match at the head of the
whole list. -/
theorem matchVolAt_of_isPrefix {q l : List Char} (hpre : q <+: l)
    (hm : matchVolAt q = true) : matchVolAt l = true := by
  obtain ⟨e, rfl⟩ := hpre
  rcases (matchVolAt_iff q).mp hm with ⟨s, d, t, c, r, rfl, hs, hsp, hd, hdg, htp, hcv⟩
  refine (matchVolAt_iff _).mpr ⟨s, d, t, c, r ++ e, ?_, hs, hsp, hd, hdg, htp, hcv⟩
  simp only [List.append_assoc, List.cons_append]

/-- The list contains no match of the volume pattern at any position. -/
def NoVol (l : List Char) : Prop := ∀ t, t <:+ l → matchVolAt t = false

theorem noVol_nil : NoVol [] := by
  intro t ht
  rw [List.suffix_nil.mp ht]
  rfl

theorem noVol_of_suffix {l' l : List Char} (h : l' <:+ l) (hn : NoVol l) :
    NoVol l' :=
  fun t ht => hn t (ht.trans h)

theorem noVol_of_isPrefix {l' l : List Char} (h : l' <+: l) (hn : NoVol l) :
    NoVol l' := by
  intro t ht
  obtain ⟨u, rfl⟩ := ht
  obtain ⟨v, rfl⟩ := h
  have hsuf : t ++ v <:+ u ++ t ++ v := ⟨u, by rw [List.append_assoc]⟩
  have := hn (t ++ v) hsuf
  cases hm : matchVolAt t with
  | false => rfl
  | true => rw [matchVolAt_of_isPrefix ⟨v, rfl⟩ hm] at this; cases this

theorem truncAtVol_isPrefix : ∀ l : List Char, truncAtVol l <+: l := by
  intro l
  induction l with
  | nil => exact List.nil_prefix
  | cons c rest ih =>
    rw [truncAtVol]
    by_cases h : matchVolAt (c :: rest) = true
    · rw [if_pos h]; exact List.nil_prefix
    · rw [if_neg h]; exact List.cons_prefix_cons.mpr ⟨rfl, ih⟩

theorem noVol_truncAtVol : ∀ l : List Char, NoVol (truncAtVol l) := by
  intro l
  induction l with
  | nil => exact noVol_nil
  | cons c rest ih =>
    rw [truncAtVol]
    by_cases h : matchVolAt (c :: rest) = true
    · rw [if_pos h]; exact noVol_nil
    · rw [if_neg h]
      intro t ht
      rcases List.suffix_cons_iff.mp ht with rfl | ht'
      · cases hm : matchVolAt (c :: truncAtVol rest) with
        | false => rfl
        | true =>
          have hpre : c :: truncAtVol rest <+: c :: rest :=
            List.cons_prefix_cons.mpr ⟨rfl, truncAtVol_isPrefix rest⟩
          exact absurd (matchVolAt_of_isPrefix hpre hm) h
      · exact ih t ht'

theorem truncAtVol_of_noVol {l : List Char} (hn : NoVol l) :
    truncAtVol l = l := by
  induction l with
  | nil => rfl
  | cons c rest ih =>
    rw [truncAtVol, if_neg (by rw [hn (c :: rest) (List.suffix_refl _)]; simp),
      ih (noVol_of_suffix (List.suffix_cons c rest) hn)]

/-! ### Lowercasing interacts trivially with the pattern and the strips -/

theorem isEmpty_map_char (f : Char → Char) (l : List Char) :
    (l.map f).isEmpty = l.isEmpty := by
  cases l <;> rfl

theorem matchVolAt_map_toLower (l : List Char) :
    matchVolAt (l.map Char.toLower) = matchVolAt l := by
  have hsp : (isSpaceAscii ∘ Char.toLower) = isSpaceAscii :=
    funext isSpaceAscii_toLower
  have hdg : (isDigitChar ∘ Char.toLower) = isDigitChar :=
    funext isDigitChar_toLower
  rw [matchVolAt, matchVolAt]
  simp only [List.takeWhile_map, List.dropWhile_map, hsp, hdg,
    isEmpty_map_char, List.head?_map]
  cases hc : (((l.dropWhile isSpaceAscii).dropWhile isDigitChar).dropWhile
      isSpaceAscii).head? with
  | none => rfl
  | some c => simp only [Option.map_some', isVolStop_toLower]

theorem noVol_map_toLower {l : List Char} (hn : NoVol l) :
    NoVol (l.map Char.toLower) := by
  intro t ht
  obtain ⟨u, hu⟩ := ht
  obtain ⟨l₁, l₂, rfl, hu1, hu2⟩ := List.map_eq_append_iff.mp hu.symm
  rw [← hu2, matchVolAt_map_toLower]
  exact hn l₂ ⟨l₁, rfl⟩

theorem head?_dropWhile_fails (f : Char → Bool) (l : List Char) :
    ∀ c, (l.dropWhile f).head? = some c → f c = false := by
  intro c hc
  have h := List.head?_dropWhile_not f l
  rw [hc] at h
  exact h

theorem dropWhile_eq_self_of_head (f : Char → Bool) (l : List Char)
    (h : ∀ c, l.head? = some c → f c = false) : l.dropWhile f = l := by
  cases l with
  | nil => rfl
  | cons a t => rw [List.dropWhile_cons, h a rfl]; simp

theorem rstripBy_isPrefix (f : Char → Bool) (l : List Char) :
    rstripBy f l <+: l := by
  rw [rstripBy]
  have h : l.reverse.dropWhile f <:+ l.reverse := List.dropWhile_suffix f
  have h2 := List.reverse_prefix.mpr h
  rwa [List.reverse_reverse] at h2

theorem getLast?_rstripBy_fails (f : Char → Bool) (l : List Char) :
    ∀ c, (rstripBy f l).getLast? = some c → f c = false := by
  intro c hc
  rw [rstripBy, List.getLast?_reverse] at hc
  exact head?_dropWhile_fails f l.reverse c hc

theorem rstripBy_eq_self_of_getLast (f : Char → Bool) (l : List Char)
    (h : ∀ c, l.getLast? = some c → f c = false) : rstripBy f l = l := by
  rw [rstripBy, dropWhile_eq_self_of_head f l.reverse, List.reverse_reverse]
  intro c hc
  rw [List.head?_reverse] at hc
  exact h c hc

theorem head?_of_isPrefix {p l : List Char} (h : p <+: l) (hne : p ≠ []) :
    l.head? = p.head? := by
  obtain ⟨v, rfl⟩ := h
  cases p with
  | nil => exact absurd rfl hne
  | cons a t => rfl

theorem getLast?_map_char (f : Char → Char) (l : List Char) :
    (l.map f).getLast? = l.getLast?.map f := by
  rw [← List.head?_reverse, ← List.map_reverse, List.head?_map,
    List.head?_reverse]

/-! ### Idempotence of the normalizer on space-only-whitespace inputs

A second application of `normalize_journal_name` is the identity on its
own output, provided the only whitespace characters around are plain
spaces.  (For inputs containing e.g. a tab this can fail: the final
`rstrip('.,; ')` may expose a trailing tab, which the second pass's
`strip()` then removes — see the counterexample `"a\t."`.) -/

theorem normalizeL_map_eq (m : List Char)
    (hnv : NoVol m)
    (hhead : ∀ c, m.head? = some c → isSpaceAscii c = false)
    (hlast : ∀ c, m.getLast? = some c →
      isPunctTrail c = false ∧ isSpaceAscii c = false) :
    normalizeL (m.map Char.toLower) = m.map Char.toLower := by
  rw [normalizeL, truncAtVol_of_noVol (noVol_map_toLower hnv)]
  have hh' : ∀ c, (m.map Char.toLower).head? = some c →
      isSpaceAscii c = false := by
    intro c hc
    cases m with
    | nil => cases hc
    | cons a t =>
      rw [List.map_cons, List.head?_cons, Option.some.injEq] at hc
      rw [← hc, isSpaceAscii_toLower]
      exact hhead a rfl
  have hl' : ∀ c, (m.map Char.toLower).getLast? = some c →
      isPunctTrail c = false ∧ isSpaceAscii c = false := by
    intro c hc
    rw [getLast?_map_char] at hc
    cases hm : m.getLast? with
    | none => rw [hm] at hc; cases hc
    | some a =>
      rw [hm, Option.map_some', Option.some.injEq] at hc
      rw [← hc, isPunctTrail_toLower, isSpaceAscii_toLower]
      exact hlast a hm
  rw [stripWs, dropWhile_eq_self_of_head _ _ hh',
    rstripBy_eq_self_of_getLast _ _ (fun c hc => (hl' c hc).2),
    rstripBy_eq_self_of_getLast _ _ (fun c hc => (hl' c hc).1),
    List.map_map]
  exact List.map_congr_left (fun a _ => toLower_toLower a)

theorem normalizeL_subset (l : List Char) :
    ∀ c ∈ rstripBy isPunctTrail (stripWs (truncAtVol l)), c ∈ l := by
  intro c hc
  have h1 : rstripBy isPunctTrail (stripWs (truncAtVol l)) <+:
      stripWs (truncAtVol l) := rstripBy_isPrefix _ _
  have h2 : stripWs (truncAtVol l) <+:
      (truncAtVol l).dropWhile isSpaceAscii := rstripBy_isPrefix _ _
  have h3 : (truncAtVol l).dropWhile isSpaceAscii <:+ truncAtVol l :=
    List.dropWhile_suffix isSpaceAscii
  have h4 : truncAtVol l <+: l := truncAtVol_isPrefix l
  exact h4.sublist.subset (h3.sublist.subset (h2.sublist.subset
    (h1.sublist.subset hc)))

theorem normalizeL_idem (l : List Char)
    (hws : ∀ c ∈ l, isSpaceAscii c = true → c = ' ') :
    normalizeL (normalizeL l) = normalizeL l := by
  have hnv : NoVol (rstripBy isPunctTrail (stripWs (truncAtVol l))) := by
    refine noVol_of_isPrefix (rstripBy_isPrefix _ _) ?_
    refine noVol_of_isPrefix (rstripBy_isPrefix _ _) ?_
    refine noVol_of_suffix (List.dropWhile_suffix isSpaceAscii) ?_
    exact noVol_truncAtVol l
  have hhead : ∀ c,
      (rstripBy isPunctTrail (stripWs (truncAtVol l))).head? = some c →
      isSpaceAscii c = false := by
    intro c hc
    have hne : rstripBy isPunctTrail (stripWs (truncAtVol l)) ≠ [] := by
      intro h
      rw [h] at hc
      cases hc
    have e1 := head?_of_isPrefix (rstripBy_isPrefix isPunctTrail
      (stripWs (truncAtVol l))) hne
    have hne2 : stripWs (truncAtVol l) ≠ [] := by
      intro h
      apply hne
      rw [h]
      rfl
    have e2 := head?_of_isPrefix (rstripBy_isPrefix isSpaceAscii
      ((truncAtVol l).dropWhile isSpaceAscii)) hne2
    exact head?_dropWhile_fails isSpaceAscii (truncAtVol l) c
      (e2.trans (e1.trans hc))
  have hlast : ∀ c,
      (rstripBy isPunctTrail (stripWs (truncAtVol l))).getLast? = some c →
      isPunctTrail c = false ∧ isSpaceAscii c = false := by
    intro c hc
    have hp : isPunctTrail c = false := getLast?_rstripBy_fails _ _ c hc
    refine ⟨hp, ?_⟩
    cases hsc : isSpaceAscii c with
    | false => rfl
    | true =>
      have hmem : c ∈ l := by
        refine normalizeL_subset l c ?_
        have := List.mem_of_mem_getLast? hc
        exact this
      have := hws c hmem hsc
      rw [this] at hp
      rw [isPunctTrail] at hp
      simp at hp
  exact normalizeL_map_eq _ hnv hhead hlast

theorem normalize_journal_name_idem (x : String)
    (hws : ∀ c ∈ x.data, isSpaceAscii c = true → c = ' ') :
    normalize_journal_name (normalize_journal_name x) =
      normalize_journal_name x := by
  by_cases hx : x = ""
  · rw [hx]
    rfl
  · by_cases hy : normalize_journal_name x = ""
    · rw [hy]
      rfl
    · have hval : normalize_journal_name x = String.mk (normalizeL x.data) := by
        rw [normalize_journal_name, if_neg hx]
      rw [hval, normalize_journal_name, if_neg (by rw [← hval]; exact hy)]
      have hdata : (String.mk (normalizeL x.data)).data = normalizeL x.data :=
        rfl
      rw [hdata, normalizeL_idem x.data hws]

/-! ### The works fetcher: `get_publications`

A SerpAPI article record is modelled with every field optional, matching
the defensive `article.get(...)` accesses; `cited_by.value` is flattened
to one optional field (`article.get("cited_by", {}).get("value", 0)`).
The HTTP source is a function from the `start` offset to the list of
articles the API returns for that page. -/

structure Article where
  title : Option String
  authors : Option String
  publication : Option String
  citedByValue : Option Nat
  year : Option String
  link : Option String
deriving DecidableEq

structure Pub where
  title : String
  authors : String
  venue : String
  citations : Nat
  year : Nat
  link : String
deriving DecidableEq

/-- Python's `str.isdigit` for ASCII strings: non-empty and all digits. -/
def isDigitString (s : String) : Bool :=
  !s.data.isEmpty && s.data.all isDigitChar

/-- `int(s)` on a digit string. -/
def natOfDigits (l : List Char) : Nat :=
  l.foldl (fun n c => 10 * n + (c.toNat - 48)) 0

/-- The per-record extraction of lines 74-83: every field is read
defensively with a default (`""` for title/authors/venue, `0` for
citations, `0` for a missing or non-numeric year, `"#"` for the link). -/
def extractPub (a : Article) : Pub :=
  { title := a.title.getD ""
    authors := a.authors.getD ""
    venue := a.publication.getD ""
    citations := a.citedByValue.getD 0
    year := if isDigitString (a.year.getD "") then
        natOfDigits (a.year.getD "").data
      else 0
    link := a.link.getD "#" }

/-- The fetch loop of `get_publications` (lines 62-87).  `fetchPage start`
models the SerpAPI request with offset `start` and `num = 100`.  Returns
the accumulated publication list together with the number of page
requests issued.  Termination: each iteration that continues appends a
non-empty page while the guard requires `acc.length < maxPapers`. -/
def getPubsLoop (fetchPage : Nat → List Article) (maxPapers start : Nat)
    (acc : List Pub) (reqs : Nat) : List Pub × Nat :=
  if h : acc.length < maxPapers then
    if he : (fetchPage start).isEmpty then (acc, reqs + 1)
    else if (fetchPage start).length < 100 then
      (acc ++ (fetchPage start).map extractPub, reqs + 1)
    else getPubsLoop fetchPage maxPapers (start + 100)
      (acc ++ (fetchPage start).map extractPub) (reqs + 1)
  else (acc, reqs)
termination_by maxPapers - acc.length
decreasing_by
  have hlen : 1 ≤ (fetchPage start).length := by
    cases hfp : fetchPage start with
    | nil => rw [hfp] at he; exact absurd rfl he
    | cons a t => exact Nat.succ_le_succ (Nat.zero_le _)
  rw [List.length_append, List.length_map]
  omega

/-- `get_publications` (lines 60-88): run the fetch loop from offset 0
and return `all_pubs[:max_papers]` together with the request count. -/
def get_publications (fetchPage : Nat → List Article) (maxPapers : Nat) :
    List Pub × Nat :=
  let r := getPubsLoop fetchPage maxPapers 0 [] 0
  (r.1.take maxPapers, r.2)

/-! Unfolding equations for the four exits of the fetch loop. -/

theorem getPubsLoop_stop (f : Nat → List Article) (m start : Nat)
    (acc : List Pub) (reqs : Nat) (h : ¬acc.length < m) :
    getPubsLoop f m start acc reqs = (acc, reqs) := by
  rw [getPubsLoop, dif_neg h]

theorem getPubsLoop_empty (f : Nat → List Article) (m start : Nat)
    (acc : List Pub) (reqs : Nat) (h : acc.length < m)
    (he : (f start).isEmpty = true) :
    getPubsLoop f m start acc reqs = (acc, reqs + 1) := by
  rw [getPubsLoop, dif_pos h, dif_pos he]

theorem getPubsLoop_short (f : Nat → List Article) (m start : Nat)
    (acc : List Pub) (reqs : Nat) (h : acc.length < m)
    (he : ¬(f start).isEmpty = true) (hs : (f start).length < 100) :
    getPubsLoop f m start acc reqs =
      (acc ++ (f start).map extractPub, reqs + 1) := by
  rw [getPubsLoop, dif_pos h, dif_neg he, if_pos hs]

theorem getPubsLoop_full (f : Nat → List Article) (m start : Nat)
    (acc : List Pub) (reqs : Nat) (h : acc.length < m)
    (he : ¬(f start).isEmpty = true) (hs : ¬(f start).length < 100) :
    getPubsLoop f m start acc reqs =
      getPubsLoop f m (start + 100) (acc ++ (f start).map extractPub)
        (reqs + 1) := by
  rw [getPubsLoop]
  rw [dif_pos h, dif_neg he, if_neg hs]

theorem getPubsLoop_reqs_le (f : Nat → List Article) (m : Nat) :
    ∀ start (acc : List Pub) reqs,
      reqs ≤ (getPubsLoop f m start acc reqs).2 := by
  intro start acc reqs
  induction start, acc, reqs using getPubsLoop.induct f m with
  | case1 start acc reqs h he =>
    rw [getPubsLoop_empty f m start acc reqs h he]
    omega
  | case2 start acc reqs h he hs =>
    rw [getPubsLoop_short f m start acc reqs h he hs]
    omega
  | case3 start acc reqs h he hs ih =>
    rw [getPubsLoop_full f m start acc reqs h he hs]
    omega
  | case4 start acc reqs h =>
    rw [getPubsLoop_stop f m start acc reqs h]

/-- The accumulated list after the loop is the input accumulator followed
by the extraction of every fetched page, in request order. -/
theorem getPubsLoop_flatten (f : Nat → List Article) (m : Nat) :
    ∀ start (acc : List Pub) reqs,
      (getPubsLoop f m start acc reqs).1 =
        acc ++ (((List.range ((getPubsLoop f m start acc reqs).2 - reqs)).map
          (fun j => (f (start + 100 * j)).map extractPub)).flatten) := by
  intro start acc reqs
  induction start, acc, reqs using getPubsLoop.induct f m with
  | case1 start acc reqs h he =>
    rw [getPubsLoop_empty f m start acc reqs h he]
    have hnil : f start = [] := List.isEmpty_iff.mp he
    simp [hnil]
  | case2 start acc reqs h he hs =>
    rw [getPubsLoop_short f m start acc reqs h he hs]
    simp [show List.range 1 = [0] from rfl]
  | case3 start acc reqs h he hs ih =>
    rw [getPubsLoop_full f m start acc reqs h he hs]
    rw [ih]
    have hk : reqs + 1 ≤ (getPubsLoop f m (start + 100)
        (acc ++ (f start).map extractPub) (reqs + 1)).2 :=
      getPubsLoop_reqs_le f m _ _ _
    have hsub : (getPubsLoop f m (start + 100)
        (acc ++ (f start).map extractPub) (reqs + 1)).2 - reqs =
        ((getPubsLoop f m (start + 100)
          (acc ++ (f start).map extractPub) (reqs + 1)).2 - (reqs + 1)) + 1 := by
      omega
    rw [hsub, List.range_succ_eq_map, List.map_cons, List.flatten_cons,
      List.append_assoc]
    have harg : start + 100 * 0 = start := by omega
    rw [harg]
    have hmaps : (List.map Nat.succ (List.range ((getPubsLoop f m (start + 100)
          (acc ++ (f start).map extractPub) (reqs + 1)).2 - (reqs + 1)))).map
          (fun j => (f (start + 100 * j)).map extractPub) =
        (List.range ((getPubsLoop f m (start + 100)
          (acc ++ (f start).map extractPub) (reqs + 1)).2 - (reqs + 1))).map
          (fun j => (f (start + 100 + 100 * j)).map extractPub) := by
      rw [List.map_map]
      refine List.map_congr_left ?_
      intro j _
      have : start + 100 * Nat.succ j = start + 100 + 100 * j := by omega
      simp only [Function.comp_apply, this]
    rw [hmaps]
  | case4 start acc reqs h =>
    rw [getPubsLoop_stop f m start acc reqs h]
    simp

/-- Why the loop stopped: either the last fetched page was short (fewer
than 100 records, including the empty-page case), or the accumulated
count has reached `max_papers`. -/
theorem getPubsLoop_stop_reason (f : Nat → List Article) (m : Nat) :
    ∀ start (acc : List Pub) reqs, start = 100 * reqs →
      (∃ j, (getPubsLoop f m start acc reqs).2 = j + 1 ∧
        (f (100 * j)).length < 100) ∨
      m ≤ (getPubsLoop f m start acc reqs).1.length := by
  intro start acc reqs
  induction start, acc, reqs using getPubsLoop.induct f m with
  | case1 start acc reqs h he =>
    intro hstart
    rw [getPubsLoop_empty f m start acc reqs h he]
    refine Or.inl ⟨reqs, rfl, ?_⟩
    rw [← hstart, List.isEmpty_iff.mp he]
    decide
  | case2 start acc reqs h he hs =>
    intro hstart
    rw [getPubsLoop_short f m start acc reqs h he hs]
    exact Or.inl ⟨reqs, rfl, by rw [← hstart]; exact hs⟩
  | case3 start acc reqs h he hs ih =>
    intro hstart
    rw [getPubsLoop_full f m start acc reqs h he hs]
    exact ih (by omega)
  | case4 start acc reqs h =>
    intro hstart
    rw [getPubsLoop_stop f m start acc reqs h]
    exact Or.inr (Nat.le_of_not_lt h)

/-- Every page before the final request was full (had at least the
requested 100 records): the loop never stops early. -/
theorem getPubsLoop_nonfinal_full (f : Nat → List Article) (m : Nat) :
    ∀ start (acc : List Pub) reqs, start = 100 * reqs →
      ∀ j, reqs ≤ j → j + 1 < (getPubsLoop f m start acc reqs).2 →
        100 ≤ (f (100 * j)).length := by
  intro start acc reqs
  induction start, acc, reqs using getPubsLoop.induct f m with
  | case1 start acc reqs h he =>
    intro _ j hj hlt
    rw [getPubsLoop_empty f m start acc reqs h he] at hlt
    omega
  | case2 start acc reqs h he hs =>
    intro _ j hj hlt
    rw [getPubsLoop_short f m start acc reqs h he hs] at hlt
    omega
  | case3 start acc reqs h he hs ih =>
    intro hstart j hj hlt
    rw [getPubsLoop_full f m start acc reqs h he hs] at hlt
    by_cases hje : j = reqs
    · rw [hje, ← hstart]
      omega
    · exact ih (by omega) j (by omega) hlt
  | case4 start acc reqs h =>
    intro _ j hj hlt
    rw [getPubsLoop_stop f m start acc reqs h] at hlt
    omega

/-- A mock source returning pages of sizes 100, 100, 37. -/
def mockArticle : Article :=
  { title := some "t", authors := none, publication := none,
    citedByValue := none, year := none, link := none }

def pages3 (start : Nat) : List Article :=
  if start = 0 then List.replicate 100 mockArticle
  else if start = 100 then List.replicate 100 mockArticle
  else if start = 200 then List.replicate 37 mockArticle
  else []

/-! ### The impact-factor cache and its file

The JSON cache object is modelled as an insertion-ordered association
list from normalized journal key to the stored metric, where `none`
models a stored JSON `null` ("looked up, nothing found") and an absent
key models "never attempted".  Floating point metric values become
rationals. -/

abbrev Cache := List (String × Option ℚ)

def cacheGet : Cache → String → Option (Option ℚ)
  | [], _ => none
  | (k', v) :: rest, k => if k' = k then some v else cacheGet rest k

def cachePut : Cache → String → Option ℚ → Cache
  | [], k, v => [(k, v)]
  | (k', v') :: rest, k, v =>
    if k' = k then (k, v) :: rest else (k', v') :: cachePut rest k v

/-- The state of `docs/if_cache.json` on disk: missing, present but
unreadable/corrupt (so `open`/`json.load` raises), or readable with a
parsed mapping. -/
inductive CacheFileState where
  | absent : CacheFileState
  | unreadable : CacheFileState
  | readable : Cache → CacheFileState

/-- `load_if_cache` (lines 94-99).  `os.path.exists` false returns the
empty dict; otherwise the file is opened and parsed with no exception
handler, so an unreadable or corrupt file raises past the function
(modelled as `Except.error`). -/
def load_if_cache : CacheFileState → Except Unit Cache
  | .absent => .ok []
  | .unreadable => .error ()
  | .readable c => .ok c

/-! ### The OpenAlex resolver: `get_journal_if` / `get_all_impact_factors` -/

/-- The outcome of the OpenAlex sources request for one key: either an
exception somewhere in the `try` block (network error, timeout, bad
JSON), or a result list, each entry carrying its optional
`summary_stats["2yr_mean_citedness"]` value. -/
inductive LookupOutcome where
  | raise : LookupOutcome
  | ok : List (Option ℚ) → LookupOutcome
deriving DecidableEq

/-- `round(impact, 1)`.  (Python rounds floats half-to-even; the tie
behaviour is irrelevant to every property proved here.) -/
def round1 (q : ℚ) : ℚ := (round (q * 10) : ℚ) / 10

/-- `get_journal_if` (lines 122-157).  Returns the resolved value, the
updated cache, and the list of keys for which a lookup request was
issued (empty or a singleton).  On a raised exception the warning is
printed and `None` returned with the cache untouched; on an empty result
list or a missing metric field, `null` is recorded in the cache. -/
def get_journal_if (journal_name : String) (cache : Cache)
    (lookup : String → LookupOutcome) : Option ℚ × Cache × List String :=
  if normalize_journal_name journal_name = "" then (none, cache, [])
  else
    match cacheGet cache (normalize_journal_name journal_name) with
    | some v => (v, cache, [])
    | none =>
      match lookup (normalize_journal_name journal_name) with
      | .raise => (none, cache, [normalize_journal_name journal_name])
      | .ok [] =>
        (none, cachePut cache (normalize_journal_name journal_name) none,
          [normalize_journal_name journal_name])
      | .ok (impact? :: _) =>
        (impact?.map round1,
          cachePut cache (normalize_journal_name journal_name)
            (impact?.map round1),
          [normalize_journal_name journal_name])

/-- The batch of new journal keys of `get_all_impact_factors` (lines
164-169): normalized venue names that are non-empty and not already in
the cache.  The Python `set` is modelled as a deduplicated list in first
occurrence order (the set's iteration order is arbitrary; nothing below
depends on it). -/
def collectNew (publications : List Pub) (cache : Cache) : List String :=
  publications.foldl (fun acc pub =>
    let normalized := normalize_journal_name pub.venue
    if normalized ≠ "" ∧ cacheGet cache normalized = none ∧ normalized ∉ acc
    then acc ++ [normalized] else acc) []

/-- One iteration of the resolver loop (lines 173-178): run
`get_journal_if` on the next journal key against the current cache,
extending the lookup log. -/
def resolveStep (lookup : String → LookupOutcome) (st : Cache × List String)
    (j : String) : Cache × List String :=
  ((get_journal_if j st.1 lookup).2.1, st.2 ++ (get_journal_if j st.1 lookup).2.2)

/-- `get_all_impact_factors` (lines 160-181): load the cache, resolve
every new key through `get_journal_if`, save, and return the cache.  The
second component is the concatenated lookup log. -/
def get_all_impact_factors (publications : List Pub) (cache0 : Cache)
    (lookup : String → LookupOutcome) : Cache × List String :=
  (collectNew publications cache0).foldl (resolveStep lookup) (cache0, [])

/-- The value `get_journal_if` stores (and returns) for an uncached key
whose lookup does not raise: `null` for an empty result list, otherwise
the first result's optional metric, rounded.  `none` (at the outer
level) encodes a raising lookup, which stores nothing. -/
def lookupTarget (lookup : String → LookupOutcome) (k : String) :
    Option (Option ℚ) :=
  match lookup k with
  | .raise => none
  | .ok [] => some none
  | .ok (impact? :: _) => some (impact?.map round1)

/-! ### Association-list cache lemmas -/

theorem cacheGet_cachePut_same (c : Cache) (k : String) (v : Option ℚ) :
    cacheGet (cachePut c k v) k = some v := by
  induction c with
  | nil => simp [cachePut, cacheGet]
  | cons kv rest ih =>
    rw [cachePut]
    by_cases h : kv.1 = k
    · rw [if_pos h, cacheGet, if_pos rfl]
    · rw [if_neg h, cacheGet, if_neg h, ih]

theorem cacheGet_cachePut_other (c : Cache) (k k' : String) (v : Option ℚ)
    (h : k' ≠ k) : cacheGet (cachePut c k' v) k = cacheGet c k := by
  induction c with
  | nil => simp [cachePut, cacheGet, h]
  | cons kv rest ih =>
    rw [cachePut]
    by_cases h2 : kv.1 = k'
    · rw [if_pos h2, cacheGet, if_neg h, cacheGet, h2, if_neg h]
    · rw [if_neg h2, cacheGet, cacheGet, ih]

/-- Exhaustive case analysis of `get_journal_if`: empty key, cache hit,
raising lookup, or a successful lookup that stores `lookupTarget`. -/
theorem get_journal_if_spec (j : String) (c : Cache)
    (lookup : String → LookupOutcome) :
    (normalize_journal_name j = "" ∧ get_journal_if j c lookup = (none, c, [])) ∨
    (normalize_journal_name j ≠ "" ∧
      (∃ v, cacheGet c (normalize_journal_name j) = some v ∧
        get_journal_if j c lookup = (v, c, []))) ∨
    (normalize_journal_name j ≠ "" ∧
      cacheGet c (normalize_journal_name j) = none ∧
      lookup (normalize_journal_name j) = .raise ∧
      get_journal_if j c lookup = (none, c, [normalize_journal_name j])) ∨
    (normalize_journal_name j ≠ "" ∧
      cacheGet c (normalize_journal_name j) = none ∧
      ∃ w, lookupTarget lookup (normalize_journal_name j) = some w ∧
        get_journal_if j c lookup =
          (w, cachePut c (normalize_journal_name j) w,
            [normalize_journal_name j])) := by
  by_cases hn : normalize_journal_name j = ""
  · exact Or.inl ⟨hn, by rw [get_journal_if, if_pos hn]⟩
  · cases hcv : cacheGet c (normalize_journal_name j) with
    | some v =>
      refine Or.inr (Or.inl ⟨hn, v, rfl, ?_⟩)
      rw [get_journal_if, if_neg hn, hcv]
    | none =>
      cases hlk : lookup (normalize_journal_name j) with
      | raise =>
        refine Or.inr (Or.inr (Or.inl ⟨hn, rfl, rfl, ?_⟩))
        rw [get_journal_if, if_neg hn, hcv, hlk]
      | ok rs =>
        refine Or.inr (Or.inr (Or.inr ⟨hn, rfl, ?_⟩))
        cases rs with
        | nil =>
          refine ⟨none, ?_, ?_⟩
          · rw [lookupTarget, hlk]
          · rw [get_journal_if, if_neg hn, hcv, hlk]
        | cons impact? rest =>
          refine ⟨impact?.map round1, ?_, ?_⟩
          · rw [lookupTarget, hlk]
          · rw [get_journal_if, if_neg hn, hcv, hlk]


theorem count_append_single_ne (l : List String) (x key : String)
    (h : ¬x = key) : (l ++ [x]).count key = l.count key := by
  rw [List.count_append, List.count_singleton, if_neg (by simpa using h),
    Nat.add_zero]

theorem count_append_single_eq (l : List String) (key : String) :
    (l ++ [key]).count key = l.count key + 1 := by
  rw [List.count_append, List.count_singleton_self]

/-- A key already resolved in the cache is never touched again: its value
survives the rest of the batch and no further lookup for it is logged. -/
theorem foldl_resolve_some (lookup : String → LookupOutcome) (key : String)
    (w : Option ℚ) :
    ∀ (J : List String) (st : Cache × List String),
      cacheGet st.1 key = some w →
      cacheGet (J.foldl (resolveStep lookup) st).1 key = some w ∧
      (J.foldl (resolveStep lookup) st).2.count key = st.2.count key := by
  intro J
  induction J with
  | nil => intro st h; exact ⟨h, rfl⟩
  | cons j rest ih =>
    intro st h
    rw [List.foldl_cons]
    have hstep : cacheGet (resolveStep lookup st j).1 key = some w ∧
        (resolveStep lookup st j).2.count key = st.2.count key := by
      rcases get_journal_if_spec j st.1 lookup with ⟨hn, he⟩ | ⟨hn, v, hcv, he⟩ |
        ⟨hn, hcv, hlk, he⟩ | ⟨hn, hcv, w', hw, he⟩
      · rw [resolveStep, he]
        exact ⟨h, by rw [List.append_nil]⟩
      · rw [resolveStep, he]
        exact ⟨h, by rw [List.append_nil]⟩
      · have hne : ¬normalize_journal_name j = key := by
          intro hh
          rw [hh, h] at hcv
          cases hcv
        rw [resolveStep, he]
        exact ⟨h, count_append_single_ne _ _ _ hne⟩
      · have hne : ¬normalize_journal_name j = key := by
          intro hh
          rw [hh, h] at hcv
          cases hcv
        rw [resolveStep, he]
        refine ⟨?_, count_append_single_ne _ _ _ hne⟩
        rw [cacheGet_cachePut_other st.1 key _ w' hne, h]
    have hr := ih (resolveStep lookup st j) hstep.1
    exact ⟨hr.1, by rw [hr.2, hstep.2]⟩

/-- Evolution of an initially-absent key over a batch.  The cache entry
only ever becomes `lookupTarget lookup key` (a key is always queried at
its own normalized name); and if some batch element normalizes to the
key and the lookup does not raise, the entry is stored and exactly one
lookup for the key is logged. -/
theorem foldl_resolve_none (lookup : String → LookupOutcome) (key : String)
    (hkey : key ≠ "") :
    ∀ (J : List String) (st : Cache × List String),
      cacheGet st.1 key = none →
      (cacheGet (J.foldl (resolveStep lookup) st).1 key = none ∨
        cacheGet (J.foldl (resolveStep lookup) st).1 key =
          lookupTarget lookup key) ∧
      ((∃ j ∈ J, normalize_journal_name j = key) →
        lookupTarget lookup key ≠ none →
        cacheGet (J.foldl (resolveStep lookup) st).1 key =
          lookupTarget lookup key ∧
        (J.foldl (resolveStep lookup) st).2.count key =
          st.2.count key + 1) := by
  intro J
  induction J with
  | nil =>
    intro st h
    refine ⟨Or.inl h, ?_⟩
    rintro ⟨j, hj, _⟩ _
    cases hj
  | cons j rest ih =>
    intro st h
    rw [List.foldl_cons]
    rcases get_journal_if_spec j st.1 lookup with ⟨hn, he⟩ | ⟨hn, v, hcv, he⟩ |
      ⟨hn, hcv, hlk, he⟩ | ⟨hn, hcv, w', hw, he⟩
    · rw [resolveStep, he]
      have hb := ih (st.1, st.2 ++ []) h
      refine ⟨hb.1, ?_⟩
      rintro ⟨j', hj', hkeyj⟩ hT
      have hj'r : j' ∈ rest := by
        rcases List.mem_cons.mp hj' with rfl | hr
        · rw [hn] at hkeyj
          exact absurd hkeyj.symm hkey
        · exact hr
      have hc := hb.2 ⟨j', hj'r, hkeyj⟩ hT
      exact ⟨hc.1, by rw [hc.2, List.append_nil]⟩
    · have hne : ¬normalize_journal_name j = key := by
        intro hh
        rw [hh, h] at hcv
        cases hcv
      rw [resolveStep, he]
      have hb := ih (st.1, st.2 ++ []) h
      refine ⟨hb.1, ?_⟩
      rintro ⟨j', hj', hkeyj⟩ hT
      have hj'r : j' ∈ rest := by
        rcases List.mem_cons.mp hj' with rfl | hr
        · exact absurd hkeyj hne
        · exact hr
      have hc := hb.2 ⟨j', hj'r, hkeyj⟩ hT
      exact ⟨hc.1, by rw [hc.2, List.append_nil]⟩
    · rw [resolveStep, he]
      by_cases hkeq : normalize_journal_name j = key
      · have hTn : lookupTarget lookup key = none := by
          rw [← hkeq, lookupTarget, hlk]
        have hb := ih (st.1, st.2 ++ [normalize_journal_name j]) h
        refine ⟨hb.1, ?_⟩
        intro _ hT
        exact absurd hTn hT
      · have hb := ih (st.1, st.2 ++ [normalize_journal_name j]) h
        refine ⟨hb.1, ?_⟩
        rintro ⟨j', hj', hkeyj⟩ hT
        have hj'r : j' ∈ rest := by
          rcases List.mem_cons.mp hj' with rfl | hr
          · exact absurd hkeyj hkeq
          · exact hr
        have hc := hb.2 ⟨j', hj'r, hkeyj⟩ hT
        refine ⟨hc.1, ?_⟩
        rw [hc.2, count_append_single_ne _ _ _ hkeq]
    · rw [resolveStep, he]
      by_cases hkeq : normalize_journal_name j = key
      · have hTw : lookupTarget lookup key = some w' := by
          rw [← hkeq, hw]
        have hsome : cacheGet (cachePut st.1 (normalize_journal_name j) w')
            key = some w' := by
          rw [hkeq]
          exact cacheGet_cachePut_same st.1 key w'
        have hrest := foldl_resolve_some lookup key w' rest
          (cachePut st.1 (normalize_journal_name j) w',
            st.2 ++ [normalize_journal_name j]) hsome
        refine ⟨Or.inr (by rw [hrest.1, hTw]), ?_⟩
        intro _ _
        refine ⟨by rw [hrest.1, hTw], ?_⟩
        rw [hrest.2]
        rw [hkeq, count_append_single_eq]
      · have hnone : cacheGet (cachePut st.1 (normalize_journal_name j) w')
            key = none := by
          rw [cacheGet_cachePut_other st.1 key _ w' hkeq, h]
        have hb := ih (cachePut st.1 (normalize_journal_name j) w',
          st.2 ++ [normalize_journal_name j]) hnone
        refine ⟨hb.1, ?_⟩
        rintro ⟨j', hj', hkeyj⟩ hT
        have hj'r : j' ∈ rest := by
          rcases List.mem_cons.mp hj' with rfl | hr
          · exact absurd hkeyj hkeq
          · exact hr
        have hc := hb.2 ⟨j', hj'r, hkeyj⟩ hT
        refine ⟨hc.1, ?_⟩
        rw [hc.2, count_append_single_ne _ _ _ hkeq]

/-- Every key in the batch is non-empty and absent from the loaded
cache. -/
theorem collectNew_spec (publications : List Pub) (cache : Cache) :
    ∀ k ∈ collectNew publications cache, k ≠ "" ∧ cacheGet cache k = none := by
  rw [collectNew]
  suffices h : ∀ (acc : List String),
      (∀ k ∈ acc, k ≠ "" ∧ cacheGet cache k = none) →
      ∀ k ∈ publications.foldl (fun acc pub =>
        if normalize_journal_name pub.venue ≠ "" ∧
            cacheGet cache (normalize_journal_name pub.venue) = none ∧
            normalize_journal_name pub.venue ∉ acc
        then acc ++ [normalize_journal_name pub.venue] else acc) acc,
      k ≠ "" ∧ cacheGet cache k = none by
    exact h [] (by intro k hk; cases hk)
  induction publications with
  | nil => intro acc hacc k hk; exact hacc k hk
  | cons p rest ih =>
    intro acc hacc k hk
    rw [List.foldl_cons] at hk
    refine ih _ ?_ k hk
    intro k' hk'
    by_cases hc : normalize_journal_name p.venue ≠ "" ∧
        cacheGet cache (normalize_journal_name p.venue) = none ∧
        normalize_journal_name p.venue ∉ acc
    · rw [if_pos hc] at hk'
      rcases List.mem_append.mp hk' with hmem | hmem
      · exact hacc k' hmem
      · rcases List.mem_singleton.mp hmem with rfl
        exact ⟨hc.1, hc.2.1⟩
    · rw [if_neg hc] at hk'
      exact hacc k' hk'


def yearKey (p : Pub) : String :=
  if 0 < p.year then toString p.year else "Other"

/-- Append `p` to the group of `key` in the insertion-ordered dict
`pubs_by_year`, creating the group at the end if absent. -/
def addPub (groups : List (String × List Pub)) (key : String) (p : Pub) :
    List (String × List Pub) :=
  match groups with
  | [] => [(key, [p])]
  | (k, ps) :: rest =>
    if k = key then (k, ps ++ [p]) :: rest else (k, ps) :: addPub rest key p

def pubs_by_year (pubs : List Pub) : List (String × List Pub) :=
  pubs.foldl (fun g p => addPub g (yearKey p) p) []

def groupGet (groups : List (String × List Pub)) (y : String) : List Pub :=
  match groups with
  | [] => []
  | (k, ps) :: rest => if k = y then ps else groupGet rest y

/-- `sorted([y for y in keys if y != "Other"], key=int, reverse=True)`
followed by appending `"Other"` when present (lines 228-233).  Python's
`sorted` is stable; on these duplicate-free keys any descending sort
agrees, and `insertionSort` with this total preorder is that stable
descending sort.  `int(x)` on the digit-string keys is `natOfDigits`. -/
def sorted_years (groups : List (String × List Pub)) : List String :=
  (List.insertionSort (fun a b => natOfDigits b.data ≤ natOfDigits a.data)
    ((groups.map Prod.fst).filter (fun y => y ≠ "Other")))
  ++ (if "Other" ∈ groups.map Prod.fst then ["Other"] else [])

/-- `sorted(pubs, key=lambda x: x.get("citations") or 0, reverse=True)`
(line 241): Python's sort is stable, and a stable descending sort is
exactly insertion sort with the relation "comes no later than", i.e.
`q.citations ≤ p.citations`. -/
def sortCitDesc (pubs : List Pub) : List Pub :=
  List.insertionSort (fun p q => q.citations ≤ p.citations) pubs

/-- The year-grouping and ordering logic of `generate_html` (lines
220-241): the ordered year sections, each with its publications sorted
by citations descending. -/
def aggregate (pubs : List Pub) : List (String × List Pub) :=
  (sorted_years (pubs_by_year pubs)).map
    (fun y => (y, sortCitDesc (groupGet (pubs_by_year pubs) y)))

/-! ### Properties of the grouping -/

/-- The order relation on year-section labels: `"Other"` comes after
everything, and numeric labels are ordered by descending year value. -/
def keyBefore (a b : String) : Prop :=
  b = "Other" ∨ (a ≠ "Other" ∧ b ≠ "Other" ∧
    natOfDigits b.data ≤ natOfDigits a.data)

theorem groupGet_addPub (g : List (String × List Pub)) (k y : String)
    (p : Pub) :
    groupGet (addPub g k p) y =
      if k = y then groupGet g y ++ [p] else groupGet g y := by
  induction g with
  | nil =>
    by_cases h : k = y <;> simp [addPub, groupGet, h]
  | cons kv rest ih =>
    obtain ⟨k', ps⟩ := kv
    by_cases hk : k' = k <;> by_cases hy : k = y <;>
      by_cases hk'y : k' = y <;>
      simp_all [addPub, groupGet]

/-- The year dict collects, per key, exactly the publications with that
year key, in fetch order. -/
theorem groupGet_pubs_by_year (pubs : List Pub) (y : String) :
    groupGet (pubs_by_year pubs) y =
      pubs.filter (fun p => yearKey p == y) := by
  rw [pubs_by_year]
  suffices h : ∀ (g : List (String × List Pub)),
      groupGet (pubs.foldl (fun g p => addPub g (yearKey p) p) g) y =
        groupGet g y ++ pubs.filter (fun p => yearKey p == y) by
    have h2 := h []
    rw [h2]
    rfl
  induction pubs with
  | nil => intro g; simp
  | cons p rest ih =>
    intro g
    rw [List.foldl_cons, ih, groupGet_addPub]
    by_cases h : yearKey p = y
    · rw [if_pos h, List.filter_cons, if_pos (by simp [h]), List.append_assoc,
        List.singleton_append]
    · rw [if_neg h, List.filter_cons, if_neg (by simp [h])]

theorem mem_keys_addPub (g : List (String × List Pub)) (k y : String)
    (p : Pub) :
    y ∈ (addPub g k p).map Prod.fst ↔ y ∈ g.map Prod.fst ∨ y = k := by
  induction g with
  | nil => simp [addPub]
  | cons kv rest ih =>
    obtain ⟨k', ps⟩ := kv
    by_cases hk : k' = k <;> simp [addPub, hk, ih] <;> tauto

theorem keys_addPub_nodup (g : List (String × List Pub)) (k : String)
    (p : Pub) (h : (g.map Prod.fst).Nodup) :
    ((addPub g k p).map Prod.fst).Nodup := by
  induction g with
  | nil => simp [addPub]
  | cons kv rest ih =>
    obtain ⟨k', ps⟩ := kv
    rw [List.map_cons, List.nodup_cons] at h
    by_cases hk : k' = k
    · rw [addPub, if_pos hk]
      simp only [List.map_cons, List.nodup_cons]
      exact h
    · rw [addPub, if_neg hk]
      simp only [List.map_cons, List.nodup_cons]
      refine ⟨?_, ih h.2⟩
      intro hmem
      rcases (mem_keys_addPub rest k k' p).mp hmem with hin | heq
      · exact h.1 hin
      · exact hk heq

theorem pubs_by_year_keys_nodup (pubs : List Pub) :
    ((pubs_by_year pubs).map Prod.fst).Nodup := by
  rw [pubs_by_year]
  suffices h : ∀ (g : List (String × List Pub)), (g.map Prod.fst).Nodup →
      (((pubs.foldl (fun g p => addPub g (yearKey p) p) g)).map
        Prod.fst).Nodup by
    exact h [] (by simp)
  induction pubs with
  | nil => intro g hg; exact hg
  | cons p rest ih =>
    intro g hg
    rw [List.foldl_cons]
    exact ih _ (keys_addPub_nodup g _ p hg)

theorem mem_insertionSort_years {l : List String} {y : String}
    (h : y ∈ List.insertionSort
      (fun a b => natOfDigits b.data ≤ natOfDigits a.data) l) : y ∈ l :=
  (List.perm_insertionSort _ l).mem_iff.mp h

theorem sorted_years_nodup (groups : List (String × List Pub))
    (h : (groups.map Prod.fst).Nodup) : (sorted_years groups).Nodup := by
  rw [sorted_years]
  have hnum : (List.insertionSort
      (fun a b => natOfDigits b.data ≤ natOfDigits a.data)
      ((groups.map Prod.fst).filter (fun y => y ≠ "Other"))).Nodup :=
    ((List.perm_insertionSort _ _).nodup_iff).mpr (h.filter _)
  refine List.Nodup.append hnum ?_ ?_
  · by_cases ho : "Other" ∈ groups.map Prod.fst <;> simp [ho]
  · intro y hy1 hy2
    have hyf := mem_insertionSort_years hy1
    have hne : y ≠ "Other" := by
      have := List.of_mem_filter hyf
      simpa using this
    by_cases ho : "Other" ∈ groups.map Prod.fst
    · rw [if_pos ho] at hy2
      exact hne (List.mem_singleton.mp hy2)
    · rw [if_neg ho] at hy2
      cases hy2

theorem sorted_years_pairwise (groups : List (String × List Pub)) :
    (sorted_years groups).Pairwise keyBefore := by
  rw [sorted_years]
  refine List.pairwise_append.mpr ⟨?_, ?_, ?_⟩
  · haveI : IsTotal String
        (fun a b => natOfDigits b.data ≤ natOfDigits a.data) :=
      ⟨fun a b => Nat.le_total (natOfDigits b.data) (natOfDigits a.data)⟩
    haveI : IsTrans String
        (fun a b => natOfDigits b.data ≤ natOfDigits a.data) :=
      ⟨fun _ _ _ hab hbc => Nat.le_trans hbc hab⟩
    have hsorted := List.sorted_insertionSort
      (fun a b => natOfDigits b.data ≤ natOfDigits a.data)
      ((groups.map Prod.fst).filter (fun y => y ≠ "Other"))
    refine List.Pairwise.imp_of_mem ?_ hsorted
    intro a b ha hb hr
    have hna : a ≠ "Other" := by
      simpa using List.of_mem_filter (mem_insertionSort_years ha)
    have hnb : b ≠ "Other" := by
      simpa using List.of_mem_filter (mem_insertionSort_years hb)
    exact Or.inr ⟨hna, hnb, hr⟩
  · by_cases ho : "Other" ∈ groups.map Prod.fst <;> simp [ho]
  · intro a _ b hb
    by_cases ho : "Other" ∈ groups.map Prod.fst
    · rw [if_pos ho] at hb
      exact Or.inl (List.mem_singleton.mp hb)
    · rw [if_neg ho] at hb
      cases hb

theorem sortCitDesc_sorted (l : List Pub) :
    (sortCitDesc l).Pairwise (fun p q => q.citations ≤ p.citations) := by
  haveI : IsTotal Pub (fun p q => q.citations ≤ p.citations) :=
    ⟨fun a b => Nat.le_total b.citations a.citations⟩
  haveI : IsTrans Pub (fun p q => q.citations ≤ p.citations) :=
    ⟨fun _ _ _ hab hbc => Nat.le_trans hbc hab⟩
  exact List.sorted_insertionSort _ l

/-- The stability identity: restricting an ordered insert to one
citation-count class either prepends the inserted element (if it is in
the class) or leaves the class untouched — inserted elements never jump
over class members. -/
theorem filter_orderedInsert (n : Nat) (p : Pub) (l : List Pub) :
    (List.orderedInsert (fun p q => q.citations ≤ p.citations) p l).filter
        (fun q => q.citations == n) =
      if p.citations == n then
        p :: l.filter (fun q => q.citations == n)
      else l.filter (fun q => q.citations == n) := by
  induction l with
  | nil =>
    rw [List.orderedInsert, List.filter_cons, List.filter_nil]
  | cons q rest ih =>
    rw [List.orderedInsert]
    by_cases hr : q.citations ≤ p.citations
    · rw [if_pos hr, List.filter_cons]
    · rw [if_neg hr, List.filter_cons, ih, List.filter_cons]
      by_cases hq : (q.citations == n) = true
      · have hpn : ¬(p.citations == n) = true := by
          rw [beq_iff_eq] at hq
          intro hp
          rw [beq_iff_eq] at hp
          omega
        rw [if_pos hq, if_neg hpn, if_neg hpn, if_pos hq]
      · rw [if_neg hq, if_neg hq]

/-- Each citation-count class of the sorted list is the class of the
input in input order: the sort is stable. -/
theorem filter_sortCitDesc (n : Nat) (l : List Pub) :
    (sortCitDesc l).filter (fun q => q.citations == n) =
      l.filter (fun q => q.citations == n) := by
  induction l with
  | nil => rfl
  | cons p rest ih =>
    rw [sortCitDesc, List.insertionSort, filter_orderedInsert]
    rw [sortCitDesc] at ih
    rw [ih, List.filter_cons]

/-- `aggregate` in closed form: the ordered year labels, each paired with
the stable citation-descending sort of the publications carrying that
label, taken in fetch order. -/
theorem aggregate_eq (pubs : List Pub) :
    aggregate pubs = (sorted_years (pubs_by_year pubs)).map
      (fun y => (y, sortCitDesc (pubs.filter (fun p => yearKey p == y)))) := by
  rw [aggregate]
  refine List.map_congr_left ?_
  intro y _
  rw [groupGet_pubs_by_year]


/-- `if_cache.get(normalized_venue)` (line 266): both a stored `null` and
an absent key collapse to Python `None`. -/
def impact_factor_of (if_cache : Cache) (venue : String) : Option ℚ :=
  (cacheGet if_cache (normalize_journal_name venue)).getD none

/-- `if impact_factor and impact_factor > 0` (line 270): the badge is
attached only when the looked-up value is truthy (non-`None`, non-zero)
and strictly positive. -/
def show_if_badge (if_cache : Cache) (venue : String) : Bool :=
  match impact_factor_of if_cache venue with
  | none => false
  | some v => if v = 0 then false else decide (0 < v)

/-! ## Claims -/

/-! Concrete fixtures used by witnesses and counterexamples. -/

def pubAlpha : Pub :=
  { title := "", authors := "", venue := "alpha", citations := 0, year := 0,
    link := "" }

def pubBeta : Pub :=
  { title := "", authors := "", venue := "beta", citations := 0, year := 0,
    link := "" }

def pubGamma : Pub :=
  { title := "", authors := "", venue := "gamma", citations := 0, year := 0,
    link := "" }

def pubsW : List Pub := [pubAlpha, pubBeta, pubGamma]

/-- A lookup oracle that raises on `"beta"`, finds a metric for
`"gamma"`, and finds no results otherwise. -/
def lookupW : String → LookupOutcome := fun k =>
  if k = "beta" then .raise
  else if k = "gamma" then .ok [some 2] else .ok []

/-- C1, counterexample to the claim as stated: with a single-journal
batch whose lookup raises (a network error), the resolver leaves the
cache empty — no `null` is recorded for the failed key. -/
theorem claim_C1_counterexample :
    collectNew [pubAlpha] [] = ["alpha"] ∧
    (get_all_impact_factors [pubAlpha] []
      (fun _ => LookupOutcome.raise)).1 = [] ∧
    cacheGet (get_all_impact_factors [pubAlpha] []
      (fun _ => LookupOutcome.raise)).1 "alpha" ≠ some none := by
  refine ⟨by decide, by decide, by decide⟩

/-- C1 (amended): for every key in the batch (in its normalized form),
the final cache entry is determined by that key's own lookup outcome
alone — a lookup with no results or a missing metric field records
`null`, while a raised lookup (network error) records nothing, leaving
the key absent; failures never abort the batch, and every other key in
the batch still resolves according to its own outcome. -/
theorem claim_C1 (pubs : List Pub) (cache0 : Cache)
    (lookup : String → LookupOutcome) (key : String)
    (hmem : key ∈ collectNew pubs cache0)
    (hfix : normalize_journal_name key = key) :
    cacheGet (get_all_impact_factors pubs cache0 lookup).1 key =
      lookupTarget lookup key := by
  obtain ⟨hne, hnone⟩ := collectNew_spec pubs cache0 key hmem
  rw [get_all_impact_factors]
  have h := foldl_resolve_none lookup key hne (collectNew pubs cache0)
    (cache0, []) hnone
  cases hT : lookupTarget lookup key with
  | none =>
    rcases h.1 with h1 | h1
    · exact h1
    · rw [h1, hT]
  | some w =>
    have h2 := (h.2 ⟨key, hmem, hfix⟩ (by rw [hT]; intro hc; cases hc)).1
    rw [hT] at h2
    exact h2

theorem claim_C1_witness :
    ("alpha" ∈ collectNew pubsW [] ∧
      normalize_journal_name "alpha" = "alpha" ∧
      "gamma" ∈ collectNew pubsW [] ∧
      normalize_journal_name "gamma" = "gamma" ∧
      lookupW "beta" = .raise) ∧
    cacheGet (get_all_impact_factors pubsW [] lookupW).1 "alpha" =
      lookupTarget lookupW "alpha" ∧
    cacheGet (get_all_impact_factors pubsW [] lookupW).1 "gamma" =
      lookupTarget lookupW "gamma" :=
  ⟨⟨by decide, by decide, by decide, by decide, by decide⟩,
    claim_C1 pubsW [] lookupW "alpha" (by decide) (by decide),
    claim_C1 pubsW [] lookupW "gamma" (by decide) (by decide)⟩

/-- C2, counterexample to the claim as stated: the cache-hit check uses
the key's normalized form, so a key that is itself present but not
normalization-fixed (here `"a\t"`, whose normalized form is `"a"`) is
present in the cache — with value null — and yet resolving it issues a
lookup request. -/
theorem claim_C2_counterexample :
    cacheGet [("a\t", (none : Option ℚ))] "a\t" = some none ∧
    (get_journal_if "a\t" [("a\t", (none : Option ℚ))]
      (fun _ => LookupOutcome.ok [])).2.2 = ["a"] := by
  refine ⟨by decide, by decide⟩

/-- C2 (amended): presence is checked at the normalized key: if the
normalized form of a key is present in the cache (including with value
null), resolving the key issues no lookup and leaves the cache
unchanged; a lookup is only ever issued when the normalized key is
absent; and a key of the batch that is normalization-fixed and whose
lookup succeeds (in particular one stored as null) is looked up exactly
once across two consecutive resolver runs on the same publication set:
once in the first run, zero times in the second. -/
theorem claim_C2 :
    (∀ (j : String) (cache : Cache) (lookup : String → LookupOutcome)
      (v : Option ℚ),
      cacheGet cache (normalize_journal_name j) = some v →
      (get_journal_if j cache lookup).2.1 = cache ∧
      (get_journal_if j cache lookup).2.2 = []) ∧
    (∀ (j : String) (cache : Cache) (lookup : String → LookupOutcome),
      (get_journal_if j cache lookup).2.2 ≠ [] →
      cacheGet cache (normalize_journal_name j) = none) ∧
    (∀ (pubs : List Pub) (cache0 : Cache) (lookup : String → LookupOutcome)
      (key : String) (rs : List (Option ℚ)),
      key ∈ collectNew pubs cache0 →
      normalize_journal_name key = key →
      lookup key = .ok rs →
      (get_all_impact_factors pubs cache0 lookup).2.count key = 1 ∧
      (get_all_impact_factors pubs
        (get_all_impact_factors pubs cache0 lookup).1 lookup).2.count key
        = 0) := by
  refine ⟨?_, ?_, ?_⟩
  · intro j cache lookup v hv
    rcases get_journal_if_spec j cache lookup with ⟨hn, he⟩ | ⟨hn, v', hcv, he⟩ |
      ⟨hn, hcv, hlk, he⟩ | ⟨hn, hcv, w', hw, he⟩
    · rw [he]
      exact ⟨rfl, rfl⟩
    · rw [he]
      exact ⟨rfl, rfl⟩
    · rw [hcv] at hv
      cases hv
    · rw [hcv] at hv
      cases hv
  · intro j cache lookup hlog
    rcases get_journal_if_spec j cache lookup with ⟨hn, he⟩ | ⟨hn, v', hcv, he⟩ |
      ⟨hn, hcv, hlk, he⟩ | ⟨hn, hcv, w', hw, he⟩
    · rw [he] at hlog
      exact absurd rfl hlog
    · rw [he] at hlog
      exact absurd rfl hlog
    · exact hcv
    · exact hcv
  · intro pubs cache0 lookup key rs hmem hfix hlk
    obtain ⟨hne, hnone⟩ := collectNew_spec pubs cache0 key hmem
    obtain ⟨w, hT⟩ : ∃ w, lookupTarget lookup key = some w := by
      cases rs with
      | nil => exact ⟨none, by rw [lookupTarget, hlk]⟩
      | cons i r => exact ⟨i.map round1, by rw [lookupTarget, hlk]⟩
    have h1 := foldl_resolve_none lookup key hne (collectNew pubs cache0)
      (cache0, []) hnone
    have h1c := h1.2 ⟨key, hmem, hfix⟩ (by rw [hT]; intro hc; cases hc)
    constructor
    · rw [get_all_impact_factors]
      have : (([] : List String)).count key = 0 := rfl
      rw [h1c.2, this]
    · have hsome : cacheGet (get_all_impact_factors pubs cache0 lookup).1
          key = some w := by
        rw [get_all_impact_factors, h1c.1, hT]
      have h2 := foldl_resolve_some lookup key w
        (collectNew pubs (get_all_impact_factors pubs cache0 lookup).1)
        ((get_all_impact_factors pubs cache0 lookup).1, []) hsome
      rw [get_all_impact_factors]
      rw [h2.2]
      rfl

theorem claim_C2_witness :
    (cacheGet [("journal x", some 4)]
        (normalize_journal_name "journal x") = some (some 4) ∧
      "alpha" ∈ collectNew [pubAlpha] [] ∧
      normalize_journal_name "alpha" = "alpha" ∧
      (fun _ : String => LookupOutcome.ok ([] : List (Option ℚ))) "alpha" =
        LookupOutcome.ok []) ∧
    ((get_journal_if "journal x" [("journal x", some 4)]
        (fun _ => LookupOutcome.raise)).2.1 = [("journal x", some 4)] ∧
      (get_journal_if "journal x" [("journal x", some 4)]
        (fun _ => LookupOutcome.raise)).2.2 = []) ∧
    ((get_all_impact_factors [pubAlpha] []
        (fun _ => LookupOutcome.ok [])).2.count "alpha" = 1 ∧
      (get_all_impact_factors [pubAlpha]
        (get_all_impact_factors [pubAlpha] []
          (fun _ => LookupOutcome.ok [])).1
        (fun _ => LookupOutcome.ok [])).2.count "alpha" = 0) :=
  ⟨⟨by decide, by decide, by decide, rfl⟩,
    claim_C2.1 "journal x" [("journal x", some 4)]
      (fun _ => LookupOutcome.raise) (some 4) (by decide),
    claim_C2.2.2 [pubAlpha] [] (fun _ => LookupOutcome.ok []) "alpha" []
      (by decide) (by decide) rfl⟩

/-- C3: the fetch loop stops exactly at a short page (zero records or
fewer than the requested 100) or when the accumulated count reaches
`max_papers`: (1) on termination, the last fetched page was short or the
accumulator reached `max_papers`; (2) every page before the last was
full; (3) on a source with pages of sizes 100, 100, 37 and any
`max_papers ≥ 237`, exactly 3 requests are issued and 237 records
returned. -/
theorem claim_C3 :
    (∀ (f : Nat → List Article) (m : Nat),
      (∃ j, (get_publications f m).2 = j + 1 ∧ (f (100 * j)).length < 100) ∨
      m ≤ (getPubsLoop f m 0 [] 0).1.length) ∧
    (∀ (f : Nat → List Article) (m j : Nat),
      j + 1 < (get_publications f m).2 → 100 ≤ (f (100 * j)).length) ∧
    (∀ m : Nat, 237 ≤ m →
      (get_publications pages3 m).2 = 3 ∧
      (get_publications pages3 m).1.length = 237) := by
  refine ⟨?_, ?_, ?_⟩
  · intro f m
    exact getPubsLoop_stop_reason f m 0 [] 0 (by omega)
  · intro f m j hj
    exact getPubsLoop_nonfinal_full f m 0 [] 0 (by omega) j (Nat.zero_le j) hj
  · intro m hm
    have p0 : pages3 0 = List.replicate 100 mockArticle := rfl
    have p100 : pages3 (0 + 100) = List.replicate 100 mockArticle := rfl
    have p200 : pages3 (0 + 100 + 100) = List.replicate 37 mockArticle := rfl
    have e1 : ¬(pages3 0).isEmpty = true := by rw [p0]; decide
    have s1 : ¬(pages3 0).length < 100 := by
      rw [p0]
      simp only [List.length_replicate]
      omega
    have e2 : ¬(pages3 (0 + 100)).isEmpty = true := by rw [p100]; decide
    have s2 : ¬(pages3 (0 + 100)).length < 100 := by
      rw [p100]
      simp only [List.length_replicate]
      omega
    have e3 : ¬(pages3 (0 + 100 + 100)).isEmpty = true := by rw [p200]; decide
    have s3 : (pages3 (0 + 100 + 100)).length < 100 := by
      rw [p200]
      simp only [List.length_replicate]
      omega
    have hloop : getPubsLoop pages3 m 0 [] 0 =
        ((([] ++ (pages3 0).map extractPub)
            ++ (pages3 (0 + 100)).map extractPub)
          ++ (pages3 (0 + 100 + 100)).map extractPub, 0 + 1 + 1 + 1) := by
      rw [getPubsLoop_full pages3 m 0 [] 0
        (by simp only [List.length_nil]; omega) e1 s1]
      rw [getPubsLoop_full pages3 m (0 + 100) ([] ++ (pages3 0).map extractPub)
        (0 + 1)
        (by rw [p0]
            simp only [List.nil_append, List.length_map, List.length_replicate]
            omega) e2 s2]
      rw [getPubsLoop_short pages3 m (0 + 100 + 100)
        (([] ++ (pages3 0).map extractPub) ++ (pages3 (0 + 100)).map extractPub)
        (0 + 1 + 1)
        (by rw [p0, p100]
            simp only [List.nil_append, List.length_append, List.length_map,
              List.length_replicate]
            omega) e3 s3]
    have hlen : (getPubsLoop pages3 m 0 [] 0).1.length = 237 := by
      rw [hloop, p0, p100, p200]
      simp only [List.nil_append, List.length_append, List.length_map,
        List.length_replicate]
    constructor
    · have : (get_publications pages3 m).2 = (getPubsLoop pages3 m 0 [] 0).2 :=
        rfl
      rw [this, hloop]
    · have : (get_publications pages3 m).1 =
          (getPubsLoop pages3 m 0 [] 0).1.take m := rfl
      rw [this, List.length_take, hlen]
      omega

theorem claim_C3_witness :
    (237 ≤ 240 ∧ (get_publications pages3 240).2 = 3 ∧
      (get_publications pages3 240).1.length = 237) ∧
    (0 + 1 < (get_publications pages3 240).2 ∧
      100 ≤ (pages3 (100 * 0)).length) := by
  have h3 := claim_C3.2.2 240 (by omega)
  refine ⟨⟨by omega, h3.1, h3.2⟩, ?_, ?_⟩
  · rw [h3.1]
    omega
  · exact claim_C3.2.1 pages3 240 0 (by rw [h3.1]; omega)

/-- An article whose title records its position, to pin down ordering. -/
def mkNumbered (i : Nat) : Article :=
  { title := some (toString i), authors := none, publication := none,
    citedByValue := none, year := none, link := none }

/-- A source whose first page holds 100 distinct records. -/
def pages100 (start : Nat) : List Article :=
  if start = 0 then (List.range 100).map mkNumbered else []

/-- C4: `get_publications` returns at most `max_papers` records, and
they are exactly a prefix of the concatenated extractions of the fetched
pages, in request order; in particular with `max_papers = 50` against a
first page of 100 distinct records it returns the first 50 of them in
their original order. -/
theorem claim_C4 :
    (∀ (f : Nat → List Article) (m : Nat),
      (get_publications f m).1.length ≤ m ∧
      (get_publications f m).1 =
        (((List.range (get_publications f m).2).map
          (fun j => (f (100 * j)).map extractPub)).flatten).take m) ∧
    ((get_publications pages100 50).1 =
      (List.range 50).map (fun i => extractPub (mkNumbered i)) ∧
     (get_publications pages100 50).2 = 1) := by
  constructor
  · intro f m
    constructor
    · have : (get_publications f m).1 =
          (getPubsLoop f m 0 [] 0).1.take m := rfl
      rw [this, List.length_take]
      omega
    · have h1 : (get_publications f m).1 =
          (getPubsLoop f m 0 [] 0).1.take m := rfl
      have h2 : (get_publications f m).2 = (getPubsLoop f m 0 [] 0).2 := rfl
      rw [h1, h2, getPubsLoop_flatten f m 0 [] 0]
      rw [List.nil_append, Nat.sub_zero]
      have harg : (List.range (getPubsLoop f m 0 [] 0).2).map
          (fun j => (f (0 + 100 * j)).map extractPub) =
          (List.range (getPubsLoop f m 0 [] 0).2).map
          (fun j => (f (100 * j)).map extractPub) := by
        refine List.map_congr_left ?_
        intro j _
        rw [Nat.zero_add]
      rw [harg]
  · have e1 : ¬(pages100 0).isEmpty = true := by decide
    have s1 : ¬(pages100 0).length < 100 := by decide
    have hloop : getPubsLoop pages100 50 0 [] 0 =
        ([] ++ (pages100 0).map extractPub, 0 + 1) := by
      rw [getPubsLoop_full pages100 50 0 [] 0 (by decide) e1 s1]
      rw [getPubsLoop_stop pages100 50 (0 + 100)
        ([] ++ (pages100 0).map extractPub) (0 + 1)
        (by rw [show pages100 0 = (List.range 100).map mkNumbered from rfl]
            simp only [List.nil_append, List.length_map, List.length_range]
            omega)]
    constructor
    · have hdef : (get_publications pages100 50).1 =
          (getPubsLoop pages100 50 0 [] 0).1.take 50 := rfl
      rw [hdef, hloop]
      rw [show pages100 0 = (List.range 100).map mkNumbered from rfl]
      rw [List.nil_append, ← List.map_take, ← List.map_take, List.take_range]
      rw [show min 50 100 = 50 from rfl, List.map_map]
      rfl
    · have hdef : (get_publications pages100 50).2 =
          (getPubsLoop pages100 50 0 [] 0).2 := rfl
      rw [hdef, hloop]

/-- C5, counterexample to the claim as stated: normalization is not
idempotent on every input.  For `"a\t."` the final `rstrip('.,; ')`
exposes a trailing tab, which a second pass's `strip()` removes:
`normalize("a\t.") = "a\t"` but `normalize("a\t") = "a"`. -/
theorem claim_C5_counterexample :
    normalize_journal_name "a\t." = "a\t" ∧
    normalize_journal_name (normalize_journal_name "a\t.") = "a" ∧
    normalize_journal_name (normalize_journal_name "a\t.") ≠
      normalize_journal_name "a\t." := by
  refine ⟨by decide, by decide, by decide⟩

/-- C5 (amended): `normalize_journal_name` is a pure function, and it is
idempotent on every input whose whitespace characters are all plain
spaces (in particular on every real venue string without tabs or
newlines); and `normalize("Advanced Materials 35 (12), 2417539") =
"advanced materials"`. -/
theorem claim_C5 :
    (∀ x : String, (∀ c ∈ x.data, isSpaceAscii c = true → c = ' ') →
      normalize_journal_name (normalize_journal_name x) =
        normalize_journal_name x) ∧
    normalize_journal_name "Advanced Materials 35 (12), 2417539" =
      "advanced materials" :=
  ⟨normalize_journal_name_idem, by decide⟩

theorem claim_C5_witness :
    (∀ c ∈ ("Journal of Testing 12 (3), 45").data,
      isSpaceAscii c = true → c = ' ') ∧
    normalize_journal_name
        (normalize_journal_name "Journal of Testing 12 (3), 45") =
      normalize_journal_name "Journal of Testing 12 (3), 45" :=
  ⟨by decide, claim_C5.1 "Journal of Testing 12 (3), 45" (by decide)⟩

/-- C6, counterexample to the claim as stated: there is no fallback to
the trimmed original.  For the non-empty input `" 1 (2)"` the truncation
leaves the empty string and the function returns `""`, not the
lowercased trimmed original `"1 (2)"`. -/
theorem claim_C6_counterexample :
    normalize_journal_name " 1 (2)" = "" ∧
    ("" : String) ≠ "1 (2)" := by
  refine ⟨by decide, by decide⟩

/-- C6 (amended): when truncation leaves an empty string (the
volume/issue pattern matches at the very start of the non-empty name),
`normalize_journal_name` returns the empty string: all information of
the input is discarded, with no fallback to the trimmed original. -/
theorem claim_C6 (name : String) (hne : name ≠ "")
    (hmatch : matchVolAt name.data = true) :
    normalize_journal_name name = "" := by
  rw [normalize_journal_name, if_neg hne]
  cases hd : name.data with
  | nil => rfl
  | cons c rest =>
    rw [hd] at hmatch
    rw [normalizeL, truncAtVol, if_pos hmatch]
    rfl

theorem claim_C6_witness :
    (" 12 (3)" ≠ "" ∧ matchVolAt (" 12 (3)" : String).data = true) ∧
    normalize_journal_name " 12 (3)" = "" :=
  ⟨⟨by decide, by decide⟩, claim_C6 " 12 (3)" (by decide) (by decide)⟩

def pubA : Pub :=
  { title := "A", authors := "", venue := "", citations := 5, year := 2021,
    link := "" }

def pubB : Pub :=
  { title := "B", authors := "", venue := "", citations := 10, year := 2023,
    link := "" }

def pubC : Pub :=
  { title := "C", authors := "", venue := "", citations := 1, year := 0,
    link := "" }

def pubD : Pub :=
  { title := "D", authors := "", venue := "", citations := 10, year := 2023,
    link := "" }

def examplePubs : List Pub := [pubA, pubB, pubC, pubD]

/-- C7: the year sections are ordered by descending numeric year with
`"Other"` always last and no duplicate section; within a section, works
are ordered by citation count descending, and each citation-count class
keeps its original fetch order (stable sort).  On years
`[2021, 2023, 0, 2023]` with citations `[5, 10, 1, 10]` the groups come
out `["2023", "2021", "Other"]` and the two tied 2023 works keep their
fetch order. -/
theorem claim_C7 :
    (∀ pubs : List Pub,
      ((aggregate pubs).map Prod.fst).Pairwise keyBefore ∧
      ((aggregate pubs).map Prod.fst).Nodup ∧
      ∀ yg ∈ aggregate pubs,
        yg.2.Pairwise (fun p q => q.citations ≤ p.citations) ∧
        ∀ n : Nat, yg.2.filter (fun q => q.citations == n) =
          (pubs.filter (fun p => yearKey p == yg.1)).filter
            (fun q => q.citations == n)) ∧
    aggregate examplePubs =
      [("2023", [pubB, pubD]), ("2021", [pubA]), ("Other", [pubC])] := by
  constructor
  · intro pubs
    have hkeys : (aggregate pubs).map Prod.fst =
        sorted_years (pubs_by_year pubs) := by
      rw [aggregate, List.map_map]
      exact List.map_id _
    refine ⟨?_, ?_, ?_⟩
    · rw [hkeys]
      exact sorted_years_pairwise (pubs_by_year pubs)
    · rw [hkeys]
      exact sorted_years_nodup (pubs_by_year pubs)
        (pubs_by_year_keys_nodup pubs)
    · intro yg hyg
      rw [aggregate_eq] at hyg
      obtain ⟨y, _, rfl⟩ := List.mem_map.mp hyg
      refine ⟨sortCitDesc_sorted _, ?_⟩
      intro n
      exact filter_sortCitDesc n (pubs.filter (fun p => yearKey p == y))
  · decide

theorem claim_C7_witness :
    ("2023", [pubB, pubD]) ∈ aggregate examplePubs ∧
    ([pubB, pubD].Pairwise (fun p q => q.citations ≤ p.citations) ∧
     ∀ n : Nat, [pubB, pubD].filter (fun q => q.citations == n) =
       (examplePubs.filter (fun p => yearKey p == "2023")).filter
         (fun q => q.citations == n)) :=
  ⟨by decide,
    (claim_C7.1 examplePubs).2.2 ("2023", [pubB, pubD]) (by decide)⟩

def emptyArticle : Article :=
  { title := none, authors := none, publication := none,
    citedByValue := none, year := none, link := none }

def badYearArticle : Article :=
  { title := some "T", authors := none, publication := none,
    citedByValue := none, year := some "n/a", link := none }

/-- C8, counterexample to the claim as stated: extraction defaults a
missing title to the empty string, not to the literal `"Untitled"` (the
`"Untitled"` default in `generate_html` line 245 is unreachable because
extraction always sets the field). -/
theorem claim_C8_counterexample :
    (extractPub emptyArticle).title = "" ∧
    (extractPub emptyArticle).title ≠ "Untitled" := by
  refine ⟨by decide, by decide⟩

/-- C8 (amended): per-record extraction is a total function that never
fails on a missing field: a missing title becomes the empty string (not
`"Untitled"`), a missing or non-numeric year becomes 0, and a missing
citation count becomes 0. -/
theorem claim_C8 (a : Article) :
    (a.title = none → (extractPub a).title = "") ∧
    (a.year = none → (extractPub a).year = 0) ∧
    (∀ s, a.year = some s → isDigitString s = false →
      (extractPub a).year = 0) ∧
    (a.citedByValue = none → (extractPub a).citations = 0) := by
  refine ⟨?_, ?_, ?_, ?_⟩
  · intro h
    rw [extractPub, h]
    rfl
  · intro h
    rw [extractPub, h]
    rfl
  · intro s hs hd
    rw [extractPub, hs]
    simp only [Option.getD_some]
    rw [if_neg (by rw [hd]; intro hc; cases hc)]
  · intro h
    rw [extractPub, h]
    rfl

theorem claim_C8_witness :
    (emptyArticle.title = none ∧ (extractPub emptyArticle).title = "") ∧
    (emptyArticle.year = none ∧ (extractPub emptyArticle).year = 0) ∧
    (badYearArticle.year = some "n/a" ∧ isDigitString "n/a" = false ∧
      (extractPub badYearArticle).year = 0) ∧
    (emptyArticle.citedByValue = none ∧
      (extractPub emptyArticle).citations = 0) :=
  ⟨⟨rfl, (claim_C8 emptyArticle).1 rfl⟩,
    ⟨rfl, (claim_C8 emptyArticle).2.1 rfl⟩,
    ⟨rfl, by decide, (claim_C8 badYearArticle).2.2.1 "n/a" rfl (by decide)⟩,
    ⟨rfl, (claim_C8 emptyArticle).2.2.2 rfl⟩⟩

/-- C9, counterexample to the claim as stated: an unreadable or corrupt
cache file is not treated as empty — `load_if_cache` opens and parses it
with no exception handler, so the error propagates. -/
theorem claim_C9_counterexample :
    load_if_cache CacheFileState.unreadable = Except.error () ∧
    load_if_cache CacheFileState.unreadable ≠ Except.ok ([] : Cache) :=
  ⟨rfl, fun h => Except.noConfusion h⟩

/-- C9 (amended): loading the metrics cache returns the persisted
mapping when the file exists and parses, and the empty mapping when the
file is missing; but an unreadable/corrupt existing file raises instead
of being treated as empty. -/
theorem claim_C9 :
    load_if_cache CacheFileState.absent = Except.ok [] ∧
    (∀ c : Cache, load_if_cache (CacheFileState.readable c) = Except.ok c) ∧
    load_if_cache CacheFileState.unreadable = Except.error () :=
  ⟨rfl, fun _ => rfl, rfl⟩

/-- C10: the impact-factor badge is shown exactly when the cache holds a
strictly positive metric under the normalized venue; a stored 0, a
stored null, and an absent key all render identically with no badge,
even though the cache itself distinguishes null from absent. -/
theorem claim_C10 :
    (∀ (if_cache : Cache) (venue : String),
      show_if_badge if_cache venue = true ↔
        ∃ v : ℚ, cacheGet if_cache (normalize_journal_name venue) =
          some (some v) ∧ 0 < v) ∧
    (show_if_badge [("j", some 0), ("k", none)] "j" = false ∧
     show_if_badge [("j", some 0), ("k", none)] "k" = false ∧
     show_if_badge [("j", some 0), ("k", none)] "absent" = false ∧
     cacheGet [("j", some 0), ("k", none)] "k" = some none ∧
     cacheGet [("j", some 0), ("k", none)] "absent" = none) := by
  constructor
  · intro if_cache venue
    rw [show_if_badge, impact_factor_of]
    cases hc : cacheGet if_cache (normalize_journal_name venue) with
    | none => simp
    | some w =>
      cases w with
      | none => simp
      | some v =>
        simp only [Option.getD_some]
        by_cases hv : v = 0
        · rw [if_pos hv]
          simp [hv]
        · rw [if_neg hv]
          simp [decide_eq_true_eq]
  · refine ⟨by decide, by decide, by decide, by decide, by decide⟩

end PubUpdater
